import Mathlib

/-!
Verification of the phala-blockchain trie-storage engine specification and of
the Balances native contract, against the repository sources.

Part 1 embeds `standalone/pruntime/enclave/src/contracts/balances.rs`:
the `Balances` contract state, `handle_command` and `handle_query`.
Machine balances (`chain::Balance`, a `u128`) are modelled as `Nat` with
explicit wrapping arithmetic modulo `2 ^ 128`: the unguarded additions in
`TransferToTee` wrap in the source, and its subtractions are guarded by a
sufficient-balance check (so they agree with truncated subtraction).

Part 2 models the trie storage engine of `crates/phala-trie-storage`
(whose test `tests/test_state_root.rs` is in the sources) from the
specification, since the engine implementation itself is not among the
provided source files.
-/

namespace Bal

/-- Lookup in the `BTreeMap<AccountIdWrapper, Balance>` model.  Account ids
(`AccountIdWrapper`, opaque ordered 32-byte values) are modelled as `Nat`;
balances (`chain::Balance`, `u128`) as `Nat` computed with explicit wrapping
arithmetic modulo `2 ^ 128` (see `addW`, `subW`). -/
def mapGet (k : Nat) : List (Nat × Nat) → Option Nat
  | [] => none
  | (k', v) :: rest => if k' = k then some v else mapGet k rest

/-- Insert-or-replace in the sorted association-list model of `BTreeMap`. -/
def mapSet (k : Nat) (v : Nat) : List (Nat × Nat) → List (Nat × Nat)
  | [] => [(k, v)]
  | (k', v') :: rest =>
    if k < k' then (k, v) :: (k', v') :: rest
    else if k' = k then (k, v) :: rest
    else (k', v') :: mapSet k v rest

/-- The `Balances` contract state: `total_issuance` and the `accounts` map
(`balances.rs` lines 19-22). -/
structure Balances where
  total_issuance : Nat
  accounts : List (Nat × Nat)
deriving DecidableEq, Repr

/-- `Balances::new()`: zero issuance, empty accounts (`balances.rs` 52-59). -/
def Balances.new : Balances := { total_issuance := 0, accounts := [] }

/-- The modulus of `chain::Balance` (`u128`) arithmetic. -/
def W : Nat := 2 ^ 128

/-- `u128` addition: wraps at `2 ^ 128`, as the source's unguarded `+=` does. -/
def addW (a b : Nat) : Nat := (a + b) % W

/-- `u128` wrapping subtraction; on the source's guarded paths (`b ≤ a < 2 ^
128`) it agrees with plain subtraction. -/
def subW (a b : Nat) : Nat := (a + (W - b % W)) % W

/-- The `TransactionError` variants reachable from `Balances::handle_command`. -/
inductive TransactionError where
  | badOrigin
  | insufficientBalance
  | noBalance
deriving DecidableEq, Repr

/-- `BalancesCommand<AccountId, Balance>` (`balances.rs` line 17). -/
inductive Command where
  | Transfer (dest : Nat) (value : Nat)
  | TransferToChain (dest : Nat) (value : Nat)
  | TransferToTee (who : Nat) (amount : Nat)
deriving DecidableEq, Repr

/-- Modelled from the spec: `phala_mq::MessageOrigin` is not among the provided
source files; modelled from its use in `balances.rs`: an origin is a pallet,
an account, or some other sender. -/
inductive MessageOrigin where
  | pallet
  | accountId (a : Nat)
  | other
deriving DecidableEq, Repr

/-- Modelled from the spec: `MessageOrigin::account()` succeeds exactly on the
account-id variant and fails with a bad-origin error otherwise (its use at
`balances.rs` lines 78 and 111 propagates the failure with `?`). -/
def MessageOrigin.account : MessageOrigin → Except TransactionError Nat
  | .accountId a => .ok a
  | _ => .error .badOrigin

/-- Modelled from the spec: `MessageOrigin::is_pallet()` tests for the pallet
variant (used at `balances.rs` line 140). -/
def MessageOrigin.is_pallet : MessageOrigin → Bool
  | .pallet => true
  | _ => false

/-- Outgoing `BalancesTransfer` messages pushed to the message queue by
`TransferToChain` (`balances.rs` lines 126-130). -/
abbrev Egress := List (Nat × Nat)

/-- `Balances::handle_command` (`balances.rs` lines 70-159), returning the
transaction result, the successor state, and the egress messages sent. -/
def handle_command (origin : MessageOrigin) (cmd : Command) (b : Balances) :
    Except TransactionError Unit × Balances × Egress :=
  match cmd with
  | .Transfer dest value =>
    match origin.account with
    | .error e => (.error e, b, [])
    | .ok o =>
      match mapGet o b.accounts with
      | none => (.error .noBalance, b, [])
      | some src =>
        if value ≤ src then
          let acc1 := mapSet o (subW src value) b.accounts
          let acc2 :=
            match mapGet dest acc1 with
            | some d => mapSet dest (addW d value) acc1
            | none => mapSet dest value acc1
          (.ok (), { b with accounts := acc2 }, [])
        else (.error .insufficientBalance, b, [])
  | .TransferToChain dest value =>
    match origin.account with
    | .error e => (.error e, b, [])
    | .ok o =>
      match mapGet o b.accounts with
      | none => (.error .noBalance, b, [])
      | some src =>
        if value ≤ src then
          (.ok (),
           { total_issuance := subW b.total_issuance value
             accounts := mapSet o (subW src value) b.accounts },
           [(dest, value)])
        else (.error .insufficientBalance, b, [])
  | .TransferToTee who amount =>
    if !origin.is_pallet then (.error .badOrigin, b, [])
    else
      let acc :=
        match mapGet who b.accounts with
        | some d => mapSet who (addW d amount) b.accounts
        | none => mapSet who amount b.accounts
      (.ok (), { total_issuance := addW b.total_issuance amount, accounts := acc }, [])

/-- The query request type (`balances.rs` lines 39-43). -/
inductive Request where
  | FreeBalance (account : Nat)
  | TotalIssuance
deriving DecidableEq, Repr

/-- The query response type (`balances.rs` lines 45-50); the error carries the
`Display` rendering of the inner error. -/
inductive Response where
  | FreeBalance (balance : Nat)
  | TotalIssuance (total_issuance : Nat)
  | Error (msg : String)
deriving DecidableEq, Repr

/-- `Balances::handle_query` (`balances.rs` lines 161-183). -/
def handle_query (origin : Option Nat) (req : Request) (b : Balances) : Response :=
  match req with
  | .FreeBalance account =>
    match origin with
    | none => .Error ("not authorized")
    | some o =>
      if o ≠ account then .Error ("not authorized")
      else
        .FreeBalance ((mapGet account b.accounts).getD 0)
  | .TotalIssuance => .TotalIssuance b.total_issuance

/-- Sum of all balances stored in the accounts map. -/
def sumBal : List (Nat × Nat) → Nat
  | [] => 0
  | p :: rest => p.2 + sumBal rest

/-- Strictly-increasing-key invariant of the `BTreeMap` model. -/
def keysSorted (m : List (Nat × Nat)) : Prop :=
  List.Pairwise (fun p q => p.1 < q.1) m

/-- Replay a list of commands from a starting state, keeping only the state. -/
def runCmds (cmds : List (MessageOrigin × Command)) (b : Balances) : Balances :=
  cmds.foldl (fun st oc => (handle_command oc.1 oc.2 st).2.1) b

/-- Two pallet-originated `TransferToTee` mints of `2 ^ 127` to different
accounts: the second addition to `total_issuance` wraps to 0 while the two
stored balances sum to `2 ^ 128`. -/
def teeTwice : List (MessageOrigin × Command) :=
  [(MessageOrigin.pallet, Command.TransferToTee 1 (2 ^ 127)),
   (MessageOrigin.pallet, Command.TransferToTee 2 (2 ^ 127))]

end Bal

namespace Trie

/-!
Modelled from the spec: the trie storage engine of `crates/phala-trie-storage`
(`TrieStorage`, `TrieStorageLevelDB`: `load`, `root`, `calc_root_if_changes`,
`apply_changes`) is not among the provided source files; only its test
`tests/test_state_root.rs` is. The engine is modelled from spec sections 3,
4.1 and 4.3: keys and values are opaque byte sequences ordered
byte-lexicographically, the engine holds a current root and a node Backend,
`calc_root_if_changes` is pure and stages main-namespace changes, replays
child-namespace changes into per-child key/value sets whose new roots are
upserted under a reserved main key, hashes the resulting main set with the
Hasher's canonical map-root function, and emits the delta of node writes;
`apply_changes` writes the delta then switches the root.  The node encoding
is implementation-defined by the spec; the model stores the whole canonical
content as the node addressed by its root digest.
-/

/-- Opaque byte sequences (keys, values, digests). -/
abbrev Bytes := List Nat

/-- Byte-lexicographic strict order on byte sequences (spec section 3). -/
def bytesLt : Bytes → Bytes → Bool
  | [], [] => false
  | [], _ :: _ => true
  | _ :: _, [] => false
  | a :: as, b :: bs => if a < b then true else if b < a then false else bytesLt as bs

/-- Canonical (sorted, deduplicated) upsert into a key/value set. -/
def insertKV (k v : Bytes) : List (Bytes × Bytes) → List (Bytes × Bytes)
  | [] => [(k, v)]
  | (k', v') :: rest =>
    if bytesLt k k' then (k, v) :: (k', v') :: rest
    else if k = k' then (k, v) :: rest
    else (k', v') :: insertKV k v rest

/-- Deletion from a key/value set ("absent" is distinct from empty value). -/
def removeKV (k : Bytes) : List (Bytes × Bytes) → List (Bytes × Bytes)
  | [] => []
  | (k', v') :: rest => if k = k' then rest else (k', v') :: removeKV k rest

/-- Stage one change-set entry: upsert on `some`, delete on `none`
(spec section 4.3, step 1). -/
def applyItem (m : List (Bytes × Bytes)) : Bytes × Option Bytes → List (Bytes × Bytes)
  | (k, some v) => insertKV k v m
  | (k, none) => removeKV k m

/-- Stage a whole main-namespace change collection in sequence order. -/
def applyItems (m : List (Bytes × Bytes)) (cs : List (Bytes × Option Bytes)) :
    List (Bytes × Bytes) :=
  cs.foldl applyItem m

/-- Current key/value set of a child trie, empty when the child is absent. -/
def childGet (cid : Bytes) : List (Bytes × List (Bytes × Bytes)) → List (Bytes × Bytes)
  | [] => []
  | (cid', kvs) :: rest => if cid' = cid then kvs else childGet cid rest

/-- Replace (or create) a child trie's key/value set, keeping child ids sorted. -/
def childSet (cid : Bytes) (kvs : List (Bytes × Bytes)) :
    List (Bytes × List (Bytes × Bytes)) → List (Bytes × List (Bytes × Bytes))
  | [] => [(cid, kvs)]
  | (cid', kvs') :: rest =>
    if bytesLt cid cid' then (cid, kvs) :: (cid', kvs') :: rest
    else if cid = cid' then (cid, kvs) :: rest
    else (cid', kvs') :: childSet cid kvs rest

/-- The full key/value content a trie commits to: the main namespace set and
the per-child-id sets.  Child roots are stored in `main` under reserved keys. -/
structure TrieContent where
  main : List (Bytes × Bytes)
  children : List (Bytes × List (Bytes × Bytes))
deriving DecidableEq, Repr

/-- The Hasher collaborator (spec section 4.2): a canonical map-root function
over a key/value set.  The engine is generic over it. -/
structure Hasher where
  mapRoot : List (Bytes × Bytes) → Bytes

/-- Modelled from the spec: the reserved main-namespace byte sequence
prepended to a child id to form the key its root is stored under
(spec sections 3 and 9; a fixed byte transform over child ids). -/
def childKeyNs : Bytes := [58, 99, 104, 105, 108, 100, 58]

/-- The reserved main-trie key holding a child trie's root. -/
def childRootKey (cid : Bytes) : Bytes := childKeyNs ++ cid

/-- Stage one child-namespace batch (spec section 4.3, step 2): replay the
child's changes on its current set, then upsert the child's new root into the
staged main set under the reserved key. -/
def stageChild (H : Hasher) (acc : TrieContent) :
    Bytes × List (Bytes × Option Bytes) → TrieContent
  | (cid, cs) =>
    let newChild := applyItems (childGet cid acc.children) cs
    { main := insertKV (childRootKey cid) (H.mapRoot newChild) acc.main
      children := childSet cid newChild acc.children }

/-- The content that results from staging a whole change-set against current
content (spec section 4.3, steps 1-3); purely functional. -/
def computeContent (H : Hasher) (c : TrieContent) (mc : List (Bytes × Option Bytes))
    (cc : List (Bytes × List (Bytes × Option Bytes))) : TrieContent :=
  cc.foldl (stageChild H) { c with main := applyItems c.main mc }

/-- Backend failures (spec section 7): a missing node is corruption; a write
failure is an I/O error of the persistent store. -/
inductive DBError where
  | missingNode
  | writeFailed
deriving DecidableEq, Repr

/-- The node Backend contract (spec section 4.1): get a node by digest (reads
may thread backend state), and atomically write a batch of nodes, which may
fail on the persistent variant. -/
structure BackendOps (σ : Type) where
  emptyState : σ
  get : σ → Bytes → Option TrieContent × σ
  writeBatch : σ → List (Bytes × TrieContent) → Except DBError σ

/-- The storage engine: a current root and a Backend handle (spec section 4.3). -/
structure Engine (σ : Type) where
  backend : σ
  rootHash : Bytes
deriving DecidableEq, Repr

/-- `root()`: pure read of the last committed root. -/
def root {σ : Type} (E : Engine σ) : Bytes := E.rootHash

/-- The transaction (delta) produced by compute: the node writes needed to
move the Backend from the old root to the new one (spec section 3). -/
abbrev Transaction := List (Bytes × TrieContent)

/-- `calc_root_if_changes`: reads the current node, stages the change-set,
returns the candidate root and the delta; mutates nothing (spec section 4.3,
compute).  The engine value it returns only threads the Backend read state. -/
def calc_root_if_changes {σ : Type} (H : Hasher) (B : BackendOps σ) (E : Engine σ)
    (mc : List (Bytes × Option Bytes)) (cc : List (Bytes × List (Bytes × Option Bytes))) :
    Except DBError (Bytes × Transaction) × Engine σ :=
  match B.get E.backend E.rootHash with
  | (none, s1) => (.error .missingNode, { E with backend := s1 })
  | (some node, s1) =>
    let nc := computeContent H node mc cc
    let newRoot := H.mapRoot nc.main
    let delta : Transaction := if nc = node then [] else [(newRoot, nc)]
    (.ok (newRoot, delta), { E with backend := s1 })

/-- `apply_changes`: write the delta to the Backend as one unit, then switch
the root; on a Backend failure the engine is unchanged and the error is
reported (spec section 4.3, apply). -/
def apply_changes {σ : Type} (B : BackendOps σ) (E : Engine σ) (r : Bytes)
    (trans : Transaction) : Engine σ × Option DBError :=
  match B.writeBatch E.backend trans with
  | .ok s' => ({ backend := s', rootHash := r }, none)
  | .error e => (E, some e)

/-- The canonical content of a bulk genesis load: insert every pair in order
into an empty main set (spec section 4.3, load). -/
def genesisContent (g : List (Bytes × Bytes)) : TrieContent :=
  { main := g.foldl (fun m p => insertKV p.1 p.2 m) [], children := [] }

/-- `load`: bulk-initialise an empty engine from genesis pairs, writing the
resulting node and setting the root. -/
def load {σ : Type} (H : Hasher) (B : BackendOps σ) (g : List (Bytes × Bytes)) :
    Engine σ × Option DBError :=
  let c := genesisContent g
  let r := H.mapRoot c.main
  match B.writeBatch B.emptyState [(r, c)] with
  | .ok s => ({ backend := s, rootHash := r }, none)
  | .error e => ({ backend := B.emptyState, rootHash := r }, some e)

/-- The in-memory Backend (`TrieStorage`'s process-local node map): an
association list with newest-first precedence. -/
structure MemDB where
  store : List (Bytes × TrieContent)
deriving DecidableEq, Repr

/-- First-match lookup in the in-memory node map. -/
def memGet (d : Bytes) : List (Bytes × TrieContent) → Option TrieContent
  | [] => none
  | (d', n) :: rest => if d' = d then some n else memGet d rest

/-- In-memory Backend operations: reads are pure, writes always succeed. -/
def memOps : BackendOps MemDB :=
  { emptyState := ⟨[]⟩
    get := fun s d => (memGet d s.store, s)
    writeBatch := fun s ps => .ok ⟨ps.reverse ++ s.store⟩ }

/-- Put into the persistent store model: digest-sorted insert-or-replace. -/
def kvdbPut (d : Bytes) (n : TrieContent) :
    List (Bytes × TrieContent) → List (Bytes × TrieContent)
  | [] => [(d, n)]
  | (d', n') :: rest =>
    if bytesLt d d' then (d, n) :: (d', n') :: rest
    else if d = d' then (d, n) :: rest
    else (d', n') :: kvdbPut d n rest

/-- Sorted lookup in the persistent store model, with early cut-off. -/
def kvdbGet (d : Bytes) : List (Bytes × TrieContent) → Option TrieContent
  | [] => none
  | (d', n) :: rest =>
    if bytesLt d d' then none
    else if d' = d then some n
    else kvdbGet d rest

/-- The persistent (LevelDB-style) Backend model: a digest-sorted store. -/
structure KVDB where
  store : List (Bytes × TrieContent)
deriving DecidableEq, Repr

/-- Persistent Backend operations over the sorted store. -/
def kvdbOps : BackendOps KVDB :=
  { emptyState := ⟨[]⟩
    get := fun s d => (kvdbGet d s.store, s)
    writeBatch := fun s ps => .ok ⟨ps.foldl (fun st p => kvdbPut p.1 p.2 st) s.store⟩ }

/-- A change batch: main-namespace changes plus per-child-id changes, the
shape fed to `calc_root_if_changes` by the tests. -/
abbrev Batch :=
  List (Bytes × Option Bytes) × List (Bytes × List (Bytes × Option Bytes))

/-- Content-level replay, the external verifier's definition (spec section
4.2: the result must match a verifier using the same canonical definition):
the contents after genesis and after each successive batch. -/
def specContents (H : Hasher) (c : TrieContent) : List Batch → List TrieContent
  | [] => [c]
  | b :: bs => c :: specContents H (computeContent H c b.1 b.2) bs

/-- The externally recorded expected roots R0..RN: the canonical root of the
content after genesis and after each batch. -/
def specRoots (H : Hasher) (g : List (Bytes × Bytes)) (batches : List Batch) : List Bytes :=
  (specContents H (genesisContent g) batches).map (fun c => H.mapRoot c.main)

/-- One engine replay step, as performed by the tests: compute, then apply;
`none` on any reported failure. -/
def replayStep {σ : Type} (H : Hasher) (B : BackendOps σ) (E : Engine σ) (b : Batch) :
    Option (Engine σ) :=
  match calc_root_if_changes H B E b.1 b.2 with
  | (.ok (r, t), E1) =>
    match apply_changes B E1 r t with
    | (E2, none) => some E2
    | (_, some _) => none
  | (.error _, _) => none

/-- Roots observed while replaying batches from an engine state: the current
root, then the roots after each batch. -/
def replayFrom {σ : Type} (H : Hasher) (B : BackendOps σ) (E : Engine σ) :
    List Batch → Option (List Bytes)
  | [] => some [root E]
  | b :: bs =>
    match replayStep H B E b with
    | none => none
    | some E' => (replayFrom H B E' bs).map (fun rs => root E :: rs)

/-- Full engine replay: genesis load, then batch-by-batch compute and apply,
collecting `root()` after load and after each batch. -/
def engineReplay {σ : Type} (H : Hasher) (B : BackendOps σ) (g : List (Bytes × Bytes))
    (batches : List Batch) : Option (List Bytes) :=
  match load H B g with
  | (E, none) => replayFrom H B E batches
  | (_, some _) => none

/-- The Backend laws the spec imposes (section 4.1): reads do not change the
store; the empty batch is a no-op; writes succeed on both provided variants;
a written node is readable under its digest. -/
structure LawfulBackend {σ : Type} (B : BackendOps σ) : Prop where
  get_pure : ∀ s d, (B.get s d).2 = s
  wb_nil : ∀ s, B.writeBatch s [] = .ok s
  wb_total : ∀ s l, ∃ s', B.writeBatch s l = .ok s'
  get_wb_single : ∀ s d n s', B.writeBatch s [(d, n)] = .ok s' → (B.get s' d).1 = some n

/-- The engine is consistent: its root resolves in the Backend to content `c`
whose canonical main-root is the engine's root. -/
def wellFormed {σ : Type} (H : Hasher) (B : BackendOps σ) (E : Engine σ)
    (c : TrieContent) : Prop :=
  (B.get E.backend E.rootHash).1 = some c ∧ E.rootHash = H.mapRoot c.main

/-- Build a trie incrementally: `load` of the empty set followed by one
compute-and-apply of a change-set of plain upserts (spec section 8,
determinism); returns the resulting root. -/
def buildIncremental {σ : Type} (H : Hasher) (B : BackendOps σ)
    (S : List (Bytes × Bytes)) : Option Bytes :=
  match load H B [] with
  | (E0, none) => (replayStep H B E0 (S.map (fun p => (p.1, some p.2)), [])).map root
  | (_, some _) => none

/-- A persistent Backend whose store always fails to write (an I/O fault of
the external key-value store, spec section 7). -/
def faultyOps : BackendOps Unit :=
  { emptyState := ()
    get := fun s _ => (none, s)
    writeBatch := fun _ _ => .error .writeFailed }

/-- Lower-case hex digit of a nibble, as a character code (the `H256` debug
rendering used by the tests writes lower-case hex). -/
def hexDigit (n : Nat) : Nat := if n < 10 then 48 + n else 87 + n

/-- Two hex character codes of one byte. -/
def byteHex (b : Nat) : List Nat := [hexDigit (b / 16), hexDigit (b % 16)]

/-- Hex rendering of a digest's bytes, as character codes. -/
def hexBody (d : Bytes) : List Nat := d.foldr (fun b acc => byteHex b ++ acc) []

/-- The derived string representation both sides of the test's root comparison
use (`format!` of the digest at `test_state_root.rs` lines 130 and 150): the
character codes of `0x` followed by the full lower-case hex of the digest. -/
def formatDigest (d : Bytes) : List Nat := 48 :: 120 :: hexBody d

/-- Numeric value of a hex digit character code. -/
def hexVal (n : Nat) : Nat := if 97 ≤ n then n - 87 else n - 48

/-- Decode a hex character-code string back to bytes, two digits at a time. -/
def parseHexBytes : List Nat → List Nat
  | c1 :: c2 :: rest => (hexVal c1 * 16 + hexVal c2) :: parseHexBytes rest
  | _ => []

/-- Total length of all keys of a set (only used by the concrete Hasher). -/
def sumKeyLen (m : List (Bytes × Bytes)) : Nat := m.foldr (fun p s => p.1.length + s) 0

/-- A tiny concrete Hasher used to instantiate the engine theorems. -/
def hEx : Hasher := { mapRoot := fun m => [m.length % 256, (sumKeyLen m) % 256] }

/-- A tiny concrete genesis set. -/
def gEx : List (Bytes × Bytes) := [([1], [10]), ([2], [20])]

/-- A tiny concrete change batch touching the main namespace and one child. -/
def batchEx : Batch := ([([3], some [30]), ([1], none)], [([9], [([4], some [40])])])

/-- Concrete committed content used to instantiate the engine theorems. -/
def cFix : TrieContent := ⟨[([1], [2])], []⟩

/-- The content `cFix` becomes after upserting key `[5]`. -/
def ncFix : TrieContent := ⟨[([1], [2]), ([5], [6])], []⟩

/-- A concrete in-memory engine committed at `cFix`. -/
def eFix : Engine MemDB := ⟨⟨[([1, 1], cFix)]⟩, [1, 1]⟩

/-- The engine `eFix` after applying the upsert of key `[5]`. -/
def e2Fix : Engine MemDB := ⟨⟨[([2, 2], ncFix), ([1, 1], cFix)]⟩, [2, 2]⟩

theorem memLawful : LawfulBackend memOps := by
  refine ⟨fun s d => rfl, fun s => rfl, fun s l => ⟨_, rfl⟩, ?_⟩
  intro s d n s' h
  simp only [memOps, Except.ok.injEq] at h
  subst h
  simp [memOps, memGet]

theorem bytesLt_irrefl (a : Bytes) : bytesLt a a = false := by
  induction a with
  | nil => rfl
  | cons x xs ih => simp [bytesLt, ih]

theorem kvdbGet_put (d : Bytes) (n : TrieContent) (store : List (Bytes × TrieContent)) :
    kvdbGet d (kvdbPut d n store) = some n := by
  induction store with
  | nil => simp [kvdbPut, kvdbGet, bytesLt_irrefl]
  | cons p rest ih =>
    obtain ⟨d', n'⟩ := p
    by_cases h1 : bytesLt d d' = true
    · simp [kvdbPut, h1, kvdbGet, bytesLt_irrefl]
    · by_cases h2 : d = d'
      · simp [kvdbPut, h1, h2, kvdbGet, bytesLt_irrefl]
      · have h2' : d' ≠ d := fun h => h2 h.symm
        simp [kvdbPut, h1, h2, kvdbGet, h2', ih]

theorem kvdbLawful : LawfulBackend kvdbOps := by
  refine ⟨fun s d => rfl, fun s => rfl, fun s l => ⟨_, rfl⟩, ?_⟩
  intro s d n s' h
  simp only [kvdbOps, Except.ok.injEq] at h
  subst h
  simp [kvdbOps, List.foldl, kvdbGet_put]

theorem replayStep_spec {σ : Type} {H : Hasher} {B : BackendOps σ} (hB : LawfulBackend B)
    {E : Engine σ} {c : TrieContent} (b : Batch) (hwf : wellFormed H B E c) :
    ∃ E', replayStep H B E b = some E' ∧
      wellFormed H B E' (computeContent H c b.1 b.2) ∧
      E'.rootHash = H.mapRoot (computeContent H c b.1 b.2).main := by
  have hg : B.get E.backend E.rootHash = (some c, E.backend) := by
    have h1 := hwf.1
    have h2 := hB.get_pure E.backend E.rootHash
    cases hge : B.get E.backend E.rootHash
    rw [hge] at h1 h2
    simp_all
  by_cases hnc : computeContent H c b.1 b.2 = c
  · refine ⟨⟨E.backend, H.mapRoot (computeContent H c b.1 b.2).main⟩, ?_, ⟨?_, rfl⟩, rfl⟩
    · simp [replayStep, calc_root_if_changes, hg, hnc, apply_changes, hB.wb_nil]
    · rw [hnc, ← hwf.2]
      exact hwf.1
  · obtain ⟨s', hw⟩ := hB.wb_total E.backend
      [(H.mapRoot (computeContent H c b.1 b.2).main, computeContent H c b.1 b.2)]
    refine ⟨⟨s', H.mapRoot (computeContent H c b.1 b.2).main⟩, ?_, ⟨?_, rfl⟩, rfl⟩
    · simp [replayStep, calc_root_if_changes, hg, hnc, apply_changes, hw]
    · exact hB.get_wb_single _ _ _ _ hw

theorem replayFrom_spec {σ : Type} {H : Hasher} {B : BackendOps σ} (hB : LawfulBackend B) :
    ∀ (batches : List Batch) (E : Engine σ) (c : TrieContent), wellFormed H B E c →
      replayFrom H B E batches =
        some ((specContents H c batches).map (fun x => H.mapRoot x.main))
  | [], E, c, hwf => by
    simp [replayFrom, specContents, root, hwf.2]
  | b :: bs, E, c, hwf => by
    obtain ⟨E', hstep, hwf', _⟩ := replayStep_spec hB b hwf
    simp only [replayFrom, hstep]
    rw [replayFrom_spec hB bs E' _ hwf']
    simp [specContents, root, hwf.2]

theorem load_spec {σ : Type} {H : Hasher} {B : BackendOps σ} (hB : LawfulBackend B)
    (g : List (Bytes × Bytes)) :
    ∃ E, load H B g = (E, none) ∧ wellFormed H B E (genesisContent g) := by
  obtain ⟨s', hw⟩ := hB.wb_total B.emptyState
    [(H.mapRoot (genesisContent g).main, genesisContent g)]
  refine ⟨⟨s', H.mapRoot (genesisContent g).main⟩, ?_, ?_, rfl⟩
  · simp [load, hw]
  · exact hB.get_wb_single _ _ _ _ hw

theorem engineReplay_spec {σ : Type} {H : Hasher} {B : BackendOps σ} (hB : LawfulBackend B)
    (g : List (Bytes × Bytes)) (batches : List Batch) :
    engineReplay H B g batches = some (specRoots H g batches) := by
  obtain ⟨E, hload, hwf⟩ := load_spec (H := H) hB g
  simp only [engineReplay, hload]
  rw [replayFrom_spec hB batches E _ hwf]
  rfl

theorem get_pair {σ : Type} {H : Hasher} {B : BackendOps σ} (hB : LawfulBackend B)
    {E : Engine σ} {c : TrieContent} (hwf : wellFormed H B E c) :
    B.get E.backend E.rootHash = (some c, E.backend) := by
  have h1 := hwf.1
  have h2 := hB.get_pure E.backend E.rootHash
  cases hge : B.get E.backend E.rootHash
  rw [hge] at h1 h2
  simp_all

theorem computeContent_nil (H : Hasher) (c : TrieContent) :
    computeContent H c [] [] = c := by
  simp [computeContent, applyItems]

theorem calc_empty {σ : Type} {H : Hasher} {B : BackendOps σ} (hB : LawfulBackend B)
    {E : Engine σ} {c : TrieContent} (hwf : wellFormed H B E c) :
    calc_root_if_changes H B E [] [] = (.ok (E.rootHash, []), E) := by
  have hg := get_pair hB hwf
  simp [calc_root_if_changes, hg, computeContent_nil, ← hwf.2]

theorem applyItems_inserts (S : List (Bytes × Bytes)) (m : List (Bytes × Bytes)) :
    applyItems m (S.map (fun p => (p.1, some p.2))) =
      S.foldl (fun acc p => insertKV p.1 p.2 acc) m := by
  induction S generalizing m with
  | nil => rfl
  | cons p rest ih =>
    simp only [List.map_cons, applyItems, List.foldl_cons]
    exact ih (insertKV p.1 p.2 m)

theorem computeContent_genesis (H : Hasher) (S : List (Bytes × Bytes)) :
    computeContent H (genesisContent []) (S.map (fun p => (p.1, some p.2))) [] =
      genesisContent S := by
  simp only [computeContent, List.foldl_nil, genesisContent]
  rw [applyItems_inserts]

theorem load_root {σ : Type} (H : Hasher) (B : BackendOps σ) (S : List (Bytes × Bytes)) :
    root (load H B S).1 = H.mapRoot (genesisContent S).main := by
  simp only [load]
  cases h : B.writeBatch B.emptyState [(H.mapRoot (genesisContent S).main, genesisContent S)] <;>
    simp [h, root]

theorem build_spec {σ : Type} {H : Hasher} {B : BackendOps σ} (hB : LawfulBackend B)
    (S : List (Bytes × Bytes)) :
    buildIncremental H B S = some (H.mapRoot (genesisContent S).main) := by
  obtain ⟨E0, hload, hwf⟩ := load_spec (H := H) hB []
  obtain ⟨E', hstep, _, hroot⟩ :=
    replayStep_spec hB (S.map (fun p => (p.1, some p.2)), []) hwf
  simp only [buildIncremental, hload, hstep]
  simp only [computeContent_genesis H S] at hroot
  show some (root E') = some (H.mapRoot (genesisContent S).main)
  show some E'.rootHash = some (H.mapRoot (genesisContent S).main)
  rw [hroot]

theorem hexVal_hexDigit (n : Nat) (h : n < 16) : hexVal (hexDigit n) = n := by
  unfold hexDigit hexVal
  split <;> split <;> omega

theorem parse_byteHex (b : Nat) (h : b < 256) (cs : List Nat) :
    parseHexBytes (byteHex b ++ cs) = b :: parseHexBytes cs := by
  simp only [byteHex, List.cons_append, List.nil_append, parseHexBytes]
  rw [hexVal_hexDigit _ (by omega), hexVal_hexDigit _ (by omega)]
  congr 1
  omega

theorem parse_hexBody (d : Bytes) (h : ∀ b ∈ d, b < 256) :
    parseHexBytes (hexBody d) = d := by
  induction d with
  | nil => rfl
  | cons b rest ih =>
    have hb : b < 256 := h b (by simp)
    have hrest : ∀ x ∈ rest, x < 256 := fun x hx => h x (by simp [hx])
    show parseHexBytes (byteHex b ++ hexBody rest) = b :: rest
    rw [parse_byteHex b hb, ih hrest]

/-- Claim C1: for a genesis key/value set, a sequence of historical change
batches, and the externally recorded expected roots R0..RN (the canonical
roots an external verifier computes for the same contents), bulk-loading the
genesis set and replaying each batch via `calc_root_if_changes` followed by
`apply_changes` yields exactly R0 after the load and Ri after batch i, on
both the in-memory and the persistent Backend. -/
theorem claim1_replay_reproduces_roots (H : Hasher) (g : List (Bytes × Bytes))
    (batches : List Batch) (R : List Bytes) (hR : R = specRoots H g batches) :
    engineReplay H memOps g batches = some R ∧
    engineReplay H kvdbOps g batches = some R := by
  subst hR
  exact ⟨engineReplay_spec memLawful g batches, engineReplay_spec kvdbLawful g batches⟩

/-- Witness for C1 at a concrete genesis set and change batch. -/
theorem claim1_witness :
    engineReplay hEx memOps gEx [batchEx] = some (specRoots hEx gEx [batchEx]) ∧
    engineReplay hEx kvdbOps gEx [batchEx] = some (specRoots hEx gEx [batchEx]) :=
  claim1_replay_reproduces_roots hEx gEx [batchEx] (specRoots hEx gEx [batchEx]) rfl

/-- Claim C2: after `apply_changes(root, transaction)` where the pair was
returned by a matching `calc_root_if_changes` against the current committed
state, `root()` equals that root, and a subsequent compute with an empty
change-set returns the same root with an empty transaction. -/
theorem claim2_round_trip {σ : Type} (H : Hasher) (B : BackendOps σ)
    (hB : LawfulBackend B) (E : Engine σ) (c : TrieContent)
    (mc : List (Bytes × Option Bytes)) (cc : List (Bytes × List (Bytes × Option Bytes)))
    (r : Bytes) (t : Transaction) (E1 E2 : Engine σ)
    (hwf : wellFormed H B E c)
    (hc : calc_root_if_changes H B E mc cc = (.ok (r, t), E1))
    (ha : apply_changes B E1 r t = (E2, none)) :
    root E2 = r ∧ calc_root_if_changes H B E2 [] [] = (.ok (r, []), E2) := by
  have hstep : replayStep H B E (mc, cc) = some E2 := by
    simp [replayStep, hc, ha]
  obtain ⟨E', hstep', hwf', hroot'⟩ := replayStep_spec hB (mc, cc) hwf
  rw [hstep] at hstep'
  injection hstep' with hEE
  subst hEE
  have hr2 : E2.rootHash = r := by
    rw [apply_changes] at ha
    cases hwb : B.writeBatch E1.backend t with
    | ok s' =>
      rw [hwb] at ha
      simp only [Prod.mk.injEq] at ha
      rw [← ha.1]
    | error e =>
      rw [hwb] at ha
      simp at ha
  refine ⟨hr2, ?_⟩
  rw [calc_empty hB hwf', hr2]

/-- Witness for C2: a concrete loaded engine, one upsert, compute then apply. -/
theorem claim2_witness :
    root e2Fix = [2, 2] ∧
    calc_root_if_changes hEx memOps e2Fix [] [] = (.ok ([2, 2], []), e2Fix) :=
  claim2_round_trip hEx memOps memLawful eFix cFix [([5], some [6])] [] [2, 2]
    [([2, 2], ncFix)] eFix e2Fix ⟨rfl, rfl⟩ rfl rfl

/-- Claim C3: for every genesis set and every batch sequence, the step-by-step
root sequences of the in-memory-backed and the persistent-backed engine are
identical. -/
theorem claim3_backend_equivalence (H : Hasher) (g : List (Bytes × Bytes))
    (batches : List Batch) :
    engineReplay H memOps g batches = engineReplay H kvdbOps g batches := by
  rw [engineReplay_spec memLawful g batches, engineReplay_spec kvdbLawful g batches]

/-- Claim C4: `calc_root_if_changes` never mutates the Backend: it returns the
engine unchanged, a second identical call returns the identical result, and
`root()` is unchanged. -/
theorem claim4_compute_pure {σ : Type} (H : Hasher) (B : BackendOps σ)
    (hB : LawfulBackend B) (E : Engine σ) (mc : List (Bytes × Option Bytes))
    (cc : List (Bytes × List (Bytes × Option Bytes))) :
    (calc_root_if_changes H B E mc cc).2 = E ∧
    calc_root_if_changes H B (calc_root_if_changes H B E mc cc).2 mc cc =
      calc_root_if_changes H B E mc cc ∧
    root (calc_root_if_changes H B E mc cc).2 = root E := by
  have hsnd : (calc_root_if_changes H B E mc cc).2 = E := by
    have hp := hB.get_pure E.backend E.rootHash
    simp only [calc_root_if_changes]
    cases hge : B.get E.backend E.rootHash with
    | mk o s1 =>
      rw [hge] at hp
      simp only at hp
      subst hp
      cases o <;> rfl
  exact ⟨hsnd, by rw [hsnd], by rw [hsnd]⟩

/-- Witness for C4 at a concrete engine and change-set. -/
theorem claim4_witness :
    (calc_root_if_changes hEx memOps eFix [([5], some [6])] []).2 = eFix ∧
    calc_root_if_changes hEx memOps
        (calc_root_if_changes hEx memOps eFix [([5], some [6])] []).2
        [([5], some [6])] [] =
      calc_root_if_changes hEx memOps eFix [([5], some [6])] [] ∧
    root (calc_root_if_changes hEx memOps eFix [([5], some [6])] []).2 = root eFix :=
  claim4_compute_pure hEx memOps memLawful eFix [([5], some [6])] []

/-- Claim C5: a trie built by one bulk `load(S)` and one built by `load(∅)`
followed by compute+apply of a change-set equivalent to S have the same root,
on both Backends. -/
theorem claim5_build_equivalence (H : Hasher) (S : List (Bytes × Bytes)) :
    buildIncremental H memOps S = some (root (load H memOps S).1) ∧
    buildIncremental H kvdbOps S = some (root (load H kvdbOps S).1) := by
  constructor
  · rw [build_spec memLawful S, load_root]
  · rw [build_spec kvdbLawful S, load_root]

/-- Claim C6: comparing two digests through the identical derived string
formatting (the `0x`-hex rendering used on both sides of the tests' root
comparison) is exact equality of the canonical fixed-length byte
representation. -/
theorem claim6_format_exact (d1 d2 : Bytes) (h1 : ∀ b ∈ d1, b < 256)
    (h2 : ∀ b ∈ d2, b < 256) (_hl1 : d1.length = 32) (_hl2 : d2.length = 32) :
    formatDigest d1 = formatDigest d2 ↔ d1 = d2 := by
  constructor
  · intro h
    have hb : hexBody d1 = hexBody d2 := by
      injection h with _ h'
      injection h' with _ h''
    rw [← parse_hexBody d1 h1, ← parse_hexBody d2 h2, hb]
  · intro h
    rw [h]

/-- Witness for C6 at two concrete 32-byte digests. -/
theorem claim6_witness :
    (formatDigest (List.replicate 32 0) = formatDigest (List.replicate 32 7) ↔
      List.replicate 32 0 = List.replicate 32 7) :=
  claim6_format_exact (List.replicate 32 0) (List.replicate 32 7)
    (by decide) (by decide) (by decide) (by decide)

/-- Claim C7: if the Backend write fails during `apply_changes`, the engine's
root remains at its pre-apply value and the failure is reported to the
caller; no partial root switch happens. -/
theorem claim7_apply_fail {σ : Type} (B : BackendOps σ) (E : Engine σ) (r : Bytes)
    (t : Transaction) (e : DBError) (h : B.writeBatch E.backend t = .error e) :
    apply_changes B E r t = (E, some e) := by
  simp [apply_changes, h]

/-- Witness for C7: a persistent store whose writes fail. -/
theorem claim7_witness :
    apply_changes faultyOps ⟨(), [0]⟩ [1] [] = (⟨(), [0]⟩, some .writeFailed) :=
  claim7_apply_fail faultyOps ⟨(), [0]⟩ [1] [] .writeFailed rfl

end Trie

namespace Bal

theorem mapGet_le_sum {k : Nat} {w : Nat} {m : List (Nat × Nat)}
    (h : mapGet k m = some w) : w ≤ sumBal m := by
  induction m with
  | nil => simp [mapGet] at h
  | cons p rest ih =>
    obtain ⟨k', v⟩ := p
    rw [mapGet] at h
    split at h
    · injection h with h
      subst h
      exact Nat.le_add_right _ _
    · exact le_trans (ih h) (Nat.le_add_left _ _)

theorem sum_mapSet_none {k : Nat} {v : Nat} {m : List (Nat × Nat)}
    (h : mapGet k m = none) : sumBal (mapSet k v m) = sumBal m + v := by
  induction m with
  | nil => simp [mapSet, sumBal]
  | cons p rest ih =>
    obtain ⟨k', v'⟩ := p
    rw [mapGet] at h
    split at h
    · simp at h
    · rename_i hk
      rw [mapSet]
      by_cases h1 : k < k'
      · rw [if_pos h1]
        simp only [sumBal]
        ring
      · rw [if_neg h1, if_neg hk]
        simp only [sumBal]
        rw [ih h]
        ring

theorem mapGet_none_of_lt {k : Nat} {m : List (Nat × Nat)}
    (h : ∀ p ∈ m, k < p.1) : mapGet k m = none := by
  induction m with
  | nil => rfl
  | cons p rest ih =>
    obtain ⟨k', v'⟩ := p
    rw [mapGet]
    have hk : k' ≠ k := by
      have := h (k', v') (by simp)
      simp only at this
      omega
    rw [if_neg hk]
    exact ih (fun q hq => h q (by simp [hq]))

theorem sum_mapSet_some {k : Nat} {v w : Nat} {m : List (Nat × Nat)}
    (hs : keysSorted m) (h : mapGet k m = some w) :
    sumBal (mapSet k v m) + w = sumBal m + v := by
  induction m with
  | nil => simp [mapGet] at h
  | cons p rest ih =>
    obtain ⟨k', v'⟩ := p
    rw [keysSorted, List.pairwise_cons] at hs
    rw [mapGet] at h
    rw [mapSet]
    by_cases hk : k' = k
    · rw [if_pos hk] at h
      injection h with h
      subst hk
      subst h
      rw [if_neg (lt_irrefl k'), if_pos rfl]
      simp only [sumBal]
      ring
    · rw [if_neg hk] at h
      by_cases h1 : k < k'
      · have hnone : mapGet k rest = none :=
          mapGet_none_of_lt (fun q hq => lt_trans h1 (hs.1 q hq))
        rw [hnone] at h
        cases h
      · rw [if_neg h1, if_neg hk]
        simp only [sumBal]
        linarith [ih hs.2 h]

theorem mem_mapSet {k : Nat} {v : Nat} {m : List (Nat × Nat)}
    {q : Nat × Nat} (hq : q ∈ mapSet k v m) : q = (k, v) ∨ q ∈ m := by
  induction m with
  | nil =>
    rw [mapSet] at hq
    simp at hq
    exact .inl hq
  | cons p rest ih =>
    obtain ⟨k', v'⟩ := p
    rw [mapSet] at hq
    by_cases h1 : k < k'
    · rw [if_pos h1] at hq
      rw [List.mem_cons] at hq
      rcases hq with hq | hq
      · exact .inl hq
      · exact .inr hq
    · rw [if_neg h1] at hq
      by_cases hk : k' = k
      · rw [if_pos hk] at hq
        rw [List.mem_cons] at hq
        rcases hq with hq | hq
        · exact .inl hq
        · exact .inr (by simp [hq])
      · rw [if_neg hk] at hq
        rw [List.mem_cons] at hq
        rcases hq with hq | hq
        · exact .inr (by simp [hq])
        · rcases ih hq with h | h
          · exact .inl h
          · exact .inr (by simp [h])

theorem keysSorted_mapSet {k : Nat} {v : Nat} {m : List (Nat × Nat)}
    (hs : keysSorted m) : keysSorted (mapSet k v m) := by
  induction m with
  | nil =>
    rw [mapSet]
    exact List.pairwise_singleton _ _
  | cons p rest ih =>
    obtain ⟨k', v'⟩ := p
    rw [keysSorted, List.pairwise_cons] at hs
    rw [mapSet]
    by_cases h1 : k < k'
    · rw [if_pos h1]
      rw [keysSorted, List.pairwise_cons]
      refine ⟨?_, ?_⟩
      · intro q hq
        rw [List.mem_cons] at hq
        rcases hq with hq | hq
        · rw [hq]
          exact h1
        · exact lt_trans h1 (hs.1 q hq)
      · rw [List.pairwise_cons]
        exact hs
    · rw [if_neg h1]
      by_cases hk : k' = k
      · rw [if_pos hk]
        rw [keysSorted, List.pairwise_cons]
        subst hk
        exact hs
      · rw [if_neg hk]
        rw [keysSorted, List.pairwise_cons]
        refine ⟨?_, ih hs.2⟩
        intro q hq
        rcases mem_mapSet hq with h | h
        · rw [h]
          simp only
          omega
        · exact hs.1 q h

theorem W_pos : 0 < W := by
  unfold W
  positivity

theorem addW_modEq (a b : Nat) : addW a b ≡ a + b [MOD W] := Nat.mod_modEq _ _

theorem addW_lt (a b : Nat) : addW a b < W := Nat.mod_lt _ W_pos

theorem subW_lt (a b : Nat) : subW a b < W := Nat.mod_lt _ W_pos

theorem modEq_of_eq {a b n : Nat} (h : a = b) : a ≡ b [MOD n] := by rw [h]

theorem modEq_add_cancel {n c a b : Nat} (h : a + c ≡ b + c [MOD n]) : a ≡ b [MOD n] :=
  Nat.ModEq.add_right_cancel (Nat.ModEq.refl c) h

theorem subW_add_modEq (a b : Nat) : subW a b + b ≡ a [MOD W] := by
  have h1 : subW a b + b ≡ a + (W - b % W) + b [MOD W] :=
    Nat.ModEq.add_right b (Nat.mod_modEq _ _)
  have h2 : a + (W - b % W) + b ≡ a + (W - b % W) + b % W [MOD W] :=
    Nat.ModEq.add_left _ (Nat.mod_modEq b W).symm
  have hble : b % W ≤ W := le_of_lt (Nat.mod_lt _ W_pos)
  have h3 : a + (W - b % W) + b % W = a + W := by omega
  have h4 : a + W ≡ a [MOD W] := Nat.add_mod_right a W
  exact h1.trans (h2.trans (modEq_of_eq h3 |>.trans h4))

theorem handle_command_preserves {origin : MessageOrigin} {cmd : Command} {b : Balances}
    (hs : keysSorted b.accounts) (hi : b.total_issuance = sumBal b.accounts % W) :
    keysSorted (handle_command origin cmd b).2.1.accounts ∧
      (handle_command origin cmd b).2.1.total_issuance =
        sumBal (handle_command origin cmd b).2.1.accounts % W := by
  have hti : b.total_issuance ≡ sumBal b.accounts [MOD W] := by
    rw [hi]
    exact Nat.mod_modEq _ _
  cases cmd with
  | Transfer dest value =>
    simp only [handle_command]
    split
    · exact ⟨hs, hi⟩
    · rename_i o ho
      split
      · exact ⟨hs, hi⟩
      · rename_i src hg
        split
        · rename_i hv
          have hsum1 := sum_mapSet_some (v := subW src value) hs hg
          have hs1 : keysSorted (mapSet o (subW src value) b.accounts) := keysSorted_mapSet hs
          have e1 : sumBal (mapSet o (subW src value) b.accounts) + value ≡
              sumBal b.accounts [MOD W] := by
            have ha : sumBal (mapSet o (subW src value) b.accounts) + value + src =
                sumBal b.accounts + (subW src value + value) := by
              linarith [hsum1]
            have hb : sumBal (mapSet o (subW src value) b.accounts) + value + src ≡
                sumBal b.accounts + src [MOD W] :=
              (modEq_of_eq ha).trans (Nat.ModEq.add_left _ (subW_add_modEq src value))
            exact modEq_add_cancel hb
          split
          · rename_i d hd
            have hsum2 := sum_mapSet_some (v := addW d value) hs1 hd
            refine ⟨keysSorted_mapSet hs1, ?_⟩
            show b.total_issuance =
              sumBal (mapSet dest (addW d value) (mapSet o (subW src value) b.accounts)) % W
            have e2 : sumBal
                (mapSet dest (addW d value) (mapSet o (subW src value) b.accounts)) ≡
                sumBal (mapSet o (subW src value) b.accounts) + value [MOD W] := by
              have hb : sumBal (mapSet o (subW src value) b.accounts) + addW d value ≡
                  sumBal (mapSet o (subW src value) b.accounts) + value + d [MOD W] := by
                have hc : sumBal (mapSet o (subW src value) b.accounts) + (d + value) =
                    sumBal (mapSet o (subW src value) b.accounts) + value + d := by ring
                exact (Nat.ModEq.add_left _ (addW_modEq d value)).trans (modEq_of_eq hc)
              exact modEq_add_cancel ((modEq_of_eq hsum2).trans hb)
            rw [hi]
            exact (e2.trans e1).symm
          · rename_i hd
            have hsum2 := sum_mapSet_none (v := value) hd
            refine ⟨keysSorted_mapSet hs1, ?_⟩
            show b.total_issuance =
              sumBal (mapSet dest value (mapSet o (subW src value) b.accounts)) % W
            rw [hi]
            exact ((modEq_of_eq hsum2).trans e1).symm
        · exact ⟨hs, hi⟩
  | TransferToChain dest value =>
    simp only [handle_command]
    split
    · exact ⟨hs, hi⟩
    · rename_i o ho
      split
      · exact ⟨hs, hi⟩
      · rename_i src hg
        split
        · rename_i hv
          have hsum1 := sum_mapSet_some (v := subW src value) hs hg
          have e1 : sumBal (mapSet o (subW src value) b.accounts) + value ≡
              sumBal b.accounts [MOD W] := by
            have ha : sumBal (mapSet o (subW src value) b.accounts) + value + src =
                sumBal b.accounts + (subW src value + value) := by
              linarith [hsum1]
            have hb : sumBal (mapSet o (subW src value) b.accounts) + value + src ≡
                sumBal b.accounts + src [MOD W] :=
              (modEq_of_eq ha).trans (Nat.ModEq.add_left _ (subW_add_modEq src value))
            exact modEq_add_cancel hb
          refine ⟨keysSorted_mapSet hs, ?_⟩
          show subW b.total_issuance value =
            sumBal (mapSet o (subW src value) b.accounts) % W
          have hchain : subW b.total_issuance value + value ≡
              sumBal (mapSet o (subW src value) b.accounts) + value [MOD W] :=
            ((subW_add_modEq b.total_issuance value).trans hti).trans e1.symm
          have hfin := modEq_add_cancel hchain
          calc subW b.total_issuance value
              = subW b.total_issuance value % W :=
                (Nat.mod_eq_of_lt (subW_lt b.total_issuance value)).symm
            _ = sumBal (mapSet o (subW src value) b.accounts) % W := hfin
        · exact ⟨hs, hi⟩
  | TransferToTee who amount =>
    simp only [handle_command]
    split
    · exact ⟨hs, hi⟩
    · split
      · rename_i d hg
        have hsum := sum_mapSet_some (v := addW d amount) hs hg
        refine ⟨keysSorted_mapSet hs, ?_⟩
        show addW b.total_issuance amount =
          sumBal (mapSet who (addW d amount) b.accounts) % W
        have e2 : sumBal (mapSet who (addW d amount) b.accounts) ≡
            sumBal b.accounts + amount [MOD W] := by
          have hb : sumBal b.accounts + addW d amount ≡
              sumBal b.accounts + amount + d [MOD W] := by
            have hc : sumBal b.accounts + (d + amount) =
                sumBal b.accounts + amount + d := by ring
            exact (Nat.ModEq.add_left _ (addW_modEq d amount)).trans (modEq_of_eq hc)
          exact modEq_add_cancel ((modEq_of_eq hsum).trans hb)
        have hfin : addW b.total_issuance amount ≡
            sumBal (mapSet who (addW d amount) b.accounts) [MOD W] :=
          ((addW_modEq b.total_issuance amount).trans (hti.add_right amount)).trans e2.symm
        calc addW b.total_issuance amount
            = addW b.total_issuance amount % W :=
              (Nat.mod_eq_of_lt (addW_lt b.total_issuance amount)).symm
          _ = sumBal (mapSet who (addW d amount) b.accounts) % W := hfin
      · rename_i hg
        have hsum := sum_mapSet_none (v := amount) hg
        refine ⟨keysSorted_mapSet hs, ?_⟩
        show addW b.total_issuance amount = sumBal (mapSet who amount b.accounts) % W
        have hfin : addW b.total_issuance amount ≡
            sumBal (mapSet who amount b.accounts) [MOD W] :=
          ((addW_modEq b.total_issuance amount).trans (hti.add_right amount)).trans
            (modEq_of_eq hsum).symm
        calc addW b.total_issuance amount
            = addW b.total_issuance amount % W :=
              (Nat.mod_eq_of_lt (addW_lt b.total_issuance amount)).symm
          _ = sumBal (mapSet who amount b.accounts) % W := hfin

theorem runCmds_inv :
    ∀ (cmds : List (MessageOrigin × Command)) (b : Balances),
      keysSorted b.accounts → b.total_issuance = sumBal b.accounts % W →
      keysSorted (runCmds cmds b).accounts ∧
        (runCmds cmds b).total_issuance = sumBal (runCmds cmds b).accounts % W
  | [], _, hs, hi => ⟨hs, hi⟩
  | oc :: rest, b, hs, hi => by
    simp only [runCmds, List.foldl_cons]
    have h := @handle_command_preserves oc.1 oc.2 b hs hi
    exact runCmds_inv rest _ h.1 h.2

/-- Counterexample to C8 as stated: from `Balances::new()`, two
pallet-originated `TransferToTee` mints of `2 ^ 127` (to accounts 1 and 2)
leave `total_issuance` wrapped to 0 while the stored balances sum to
`2 ^ 128`, so the second call does not preserve the exact equality. -/
theorem claim8_counterexample :
    ¬ (runCmds teeTwice Balances.new).total_issuance =
        sumBal (runCmds teeTwice Balances.new).accounts := by
  decide

/-- Claim C8 (amended): starting from `Balances::new()`, every
`handle_command` call, whether it succeeds or errors, preserves the equality
between `total_issuance` and the sum of all balances stored in `accounts`
reduced modulo `2 ^ 128` (the `u128` wrapping modulus of `chain::Balance`). -/
theorem claim8_issuance_invariant (cmds : List (MessageOrigin × Command)) :
    (runCmds cmds Balances.new).total_issuance =
      sumBal (runCmds cmds Balances.new).accounts % W :=
  (runCmds_inv cmds Balances.new List.Pairwise.nil rfl).2

/-- Claim C9: whenever `handle_command` returns an error, the accounts map and
the total issuance are exactly as before the call. -/
theorem claim9_error_no_mutation (origin : MessageOrigin) (cmd : Command) (b : Balances)
    (e : TransactionError) (h : (handle_command origin cmd b).1 = .error e) :
    (handle_command origin cmd b).2.1 = b := by
  cases cmd with
  | Transfer dest value =>
    simp only [handle_command] at h ⊢
    split at h
    · rfl
    · split at h
      · rfl
      · split at h
        · simp at h
        · rename_i hv
          rw [if_neg hv]
  | TransferToChain dest value =>
    simp only [handle_command] at h ⊢
    split at h
    · rfl
    · split at h
      · rfl
      · split at h
        · simp at h
        · rename_i hv
          rw [if_neg hv]
  | TransferToTee who amount =>
    simp only [handle_command] at h ⊢
    split at h
    · rename_i hp
      rw [if_pos hp]
    · simp at h

/-- Witness for C9: a transfer from an account with no balance errors and
leaves the fresh state untouched. -/
theorem claim9_witness :
    (handle_command (.accountId 1) (.Transfer 2 5) Balances.new).1 = .error .noBalance ∧
    (handle_command (.accountId 1) (.Transfer 2 5) Balances.new).2.1 = Balances.new :=
  ⟨rfl, claim9_error_no_mutation (.accountId 1) (.Transfer 2 5) Balances.new .noBalance rfl⟩

/-- Claim C10: `handle_query` answers `FreeBalance` only for a matching
`some` origin (defaulting to 0 when the account is absent), answers
"not authorized" in every other case, and answers `TotalIssuance` for any
origin. -/
theorem claim10_query_auth (og : Option Nat) (acc : Nat) (b : Balances) :
    (og = some acc → handle_query og (.FreeBalance acc) b =
      .FreeBalance ((mapGet acc b.accounts).getD 0)) ∧
    (og ≠ some acc → handle_query og (.FreeBalance acc) b = .Error ("not authorized")) ∧
    handle_query og .TotalIssuance b = .TotalIssuance b.total_issuance := by
  refine ⟨?_, ?_, rfl⟩
  · rintro rfl
    simp [handle_query]
  · intro hne
    cases og with
    | none => rfl
    | some o =>
      have ho : o ≠ acc := fun h => hne (by rw [h])
      simp [handle_query, ho]

/-- Witness for C10: the matching origin is answered, a missing origin is
rejected, both on the fresh state. -/
theorem claim10_witness :
    handle_query (some 3) (.FreeBalance 3) Balances.new = .FreeBalance 0 ∧
    handle_query none (.FreeBalance 3) Balances.new = .Error ("not authorized") :=
  ⟨(claim10_query_auth (some 3) 3 Balances.new).1 rfl,
   (claim10_query_auth none 3 Balances.new).2.1 (by simp)⟩

end Bal
